import Mathlib

/-!
Verification of the CHM (Compiled HTML Help) archive reader specified for
the CHMParser repository.  The repository's own source is the bridging
header `Sources/CHMLib/include/CHMBridge.h`; the archive-reading capability
it exposes (open / listEntries / resolve / read / close over ITSF archives
with an LZX-style checkpointed decompressor) is not present under `src/`,
so those operations are modelled from the specification and verified here.
The bridging header itself is embedded as a small C-preprocessor model.
-/

namespace CHM

/-- A byte is modelled as a natural number (values 0..255 in well-formed
streams; the model never depends on an upper bound). -/
abbrev Byte := Nat

/-- A byte string. -/
abbrev Bytes := List Nat

/-- Modelled from the spec: the error taxonomy of section 7 (IOError,
FormatError, NotFoundError, ClosedError); the reader itself is missing from
the sources, only this taxonomy describes its failures. -/
inductive Err where
  | IOError : Err
  | FormatError : Err
  | NotFoundError : Err
  | ClosedError : Err
deriving DecidableEq, Repr

/-- Decidable equality of `Except` results, so concrete runs of the
fallible operations can be checked by evaluation. -/
instance {ε α : Type} [DecidableEq ε] [DecidableEq α] : DecidableEq (Except ε α) :=
  fun x y =>
    match x, y with
    | .ok a, .ok b =>
      if h : a = b then .isTrue (by rw [h])
      else .isFalse (fun hc => h (by cases hc; rfl))
    | .error e, .error f =>
      if h : e = f then .isTrue (by rw [h])
      else .isFalse (fun hc => h (by cases hc; rfl))
    | .ok _, .error _ => .isFalse (fun hc => Except.noConfusion hc)
    | .error _, .ok _ => .isFalse (fun hc => Except.noConfusion hc)

/-- Modelled from the spec: the two content sections an entry can live in. -/
inductive SectionKind where
  | Uncompressed : SectionKind
  | MSCompressed : SectionKind
deriving DecidableEq, Repr

/-- Modelled from the spec: an Entry record
{name, section, offset, length}; the name is kept as raw bytes so lookup is
byte-exact and case-sensitive. Offsets are relative to the named section's
logical start. -/
structure Entry where
  name : Bytes
  sect : SectionKind
  offset : Nat
  length : Nat
deriving DecidableEq, Repr

/-- Read a little-endian 32-bit value at byte offset `off`; `none` when the
stream is too short (a short read). -/
def readU32 (bs : Bytes) (off : Nat) : Option Nat :=
  match bs[off]?, bs[off+1]?, bs[off+2]?, bs[off+3]? with
  | some a, some b, some c, some d =>
      some (a + 256 * b + 65536 * c + 16777216 * d)
  | _, _, _, _ => none

/-- Read `k` consecutive little-endian 32-bit values starting at `off`. -/
def readU32List (bs : Bytes) (off : Nat) : Nat → Option (List Nat)
  | 0 => some []
  | k+1 =>
    match readU32 bs off, readU32List bs (off+4) k with
    | some v, some vs => some (v :: vs)
    | _, _ => none

/-- The 4-byte file magic "ITSF". -/
def itsfMagic : Bytes := [73, 84, 83, 70]

/-- The 4-byte directory-header magic "ITSP". -/
def itspMagic : Bytes := [73, 84, 83, 80]

/-- The 4-byte leaf-chunk magic "PMGL". -/
def pmglMagic : Bytes := [80, 77, 71, 76]

/-- The 4-byte index-chunk magic "PMGI". -/
def pmgiMagic : Bytes := [80, 77, 71, 73]

/-- Modelled from the spec: the immutable header fields kept by an Archive
(directory chunk size, chunk count, index-tree depth, language id) together
with the LZX control data (window size, reset interval, reset table) and the
section locations. The concrete byte layout of the original format is not in
the sources; this model fixes a little-endian field order. -/
structure Header where
  dirChunkSize : Nat
  dirChunkCount : Nat
  indexDepth : Nat
  langId : Nat
  dirOffset : Nat
  contentBase : Nat
  lzxWindow : Nat
  resetIval : Nat
  resetTable : List Nat
  compOffset : Nat
  compTotal : Nat
deriving DecidableEq, Repr

/-- The admissible LZX window sizes (a small set of powers of two, per the
spec's control-data rule). -/
def windowSizes : List Nat :=
  [32768, 65536, 131072, 262144, 524288, 1048576, 2097152]

/-- Modelled from the spec: parse the fixed header that follows the "ITSF"
magic. Short reads are `IOError`; an LZX window size outside the admissible
set or a zero reset interval is `FormatError`. -/
def parseHeader (file : Bytes) : Except Err Header :=
  match readU32 file 4, readU32 file 8, readU32 file 12, readU32 file 16,
        readU32 file 20, readU32 file 24, readU32 file 28, readU32 file 32,
        readU32 file 36, readU32 file 40, readU32 file 44, readU32 file 48 with
  | some csz, some ccnt, some dep, some lang, some doff, some cbase,
    some w, some r, some rtoff, some rtcnt, some coff, some ctot =>
    match readU32List file rtoff rtcnt with
    | none => .error .IOError
    | some rt =>
      if w ∈ windowSizes then
        if r = 0 then .error .FormatError
        else .ok ⟨csz, ccnt, dep, lang, doff, cbase, w, r, rt, coff, ctot⟩
      else .error .FormatError
  | _, _, _, _, _, _, _, _, _, _, _, _ => .error .IOError

/-- Modelled from the spec (4.1 Chunk Reader): mechanical slicing of the
backing byte source at `base + idx * chunkSize`, `IOError` on a short read. -/
def readChunk (src : Bytes) (base chunkSize idx : Nat) : Except Err Bytes :=
  if base + (idx + 1) * chunkSize ≤ src.length then
    .ok ((src.drop (base + idx * chunkSize)).take chunkSize)
  else .error .IOError

/-- Decode a section-id byte into a section kind. -/
def sectionOfId (b : Nat) : Option SectionKind :=
  if b = 0 then some SectionKind.Uncompressed
  else if b = 1 then some SectionKind.MSCompressed
  else none

/-- Modelled from the spec (4.2 Directory Parser): the records of one PMGL
leaf chunk body, each consisting of a 1-byte name length, the name bytes, a
1-byte section id, and little-endian 32-bit offset and length. A zero name
length ends the record list; a record extending past the chunk bounds is a
`FormatError`. The fuel argument bounds the number of records; each record
occupies at least 11 bytes, so a fuel of the chunk length never runs out. -/
def parseRecordsF : Nat → Bytes → Except Err (List Entry)
  | _, [] => .ok []
  | _, 0 :: _ => .ok []
  | 0, _ :: _ => .error .FormatError
  | fuel+1, (nlen+1) :: rest =>
    if rest.length < nlen + 1 + 9 then .error .FormatError
    else
      let nm := rest.take (nlen+1)
      let rest2 := rest.drop (nlen+1)
      match rest2[0]?, readU32 rest2 1, readU32 rest2 5 with
      | some sid, some off, some len =>
        match sectionOfId sid with
        | none => .error .FormatError
        | some s =>
          match parseRecordsF fuel (rest2.drop 9) with
          | .error e => .error e
          | .ok es => .ok (Entry.mk nm s off len :: es)
      | _, _, _ => .error .FormatError

/-- The record list of one chunk body, with enough fuel for any record
count the chunk can hold. -/
def parseRecords (bs : Bytes) : Except Err (List Entry) :=
  parseRecordsF bs.length bs

/-- Modelled from the spec: one directory chunk; PMGL leaf chunks carry
records, PMGI index chunks carry only navigation data and contribute no
entries, any other chunk magic is a `FormatError`. -/
def parseChunk (chunk : Bytes) : Except Err (List Entry) :=
  if chunk.take 4 = pmglMagic then parseRecords (chunk.drop 4)
  else if chunk.take 4 = pmgiMagic then .ok []
  else .error .FormatError

/-- Modelled from the spec: read and parse `k` consecutive directory chunks
starting at chunk index `j`, concatenating their records in order. -/
def parseChunksFrom (file : Bytes) (base size : Nat) : Nat → Nat → Except Err (List Entry)
  | 0, _ => .ok []
  | k+1, j =>
    match readChunk file base size j with
    | .error e => .error e
    | .ok chunk =>
      match parseChunk chunk with
      | .error e => .error e
      | .ok es =>
        match parseChunksFrom file base size k (j+1) with
        | .error e => .error e
        | .ok rest => .ok (es ++ rest)

/-- Modelled from the spec: insert one parsed record into the entry table
with the duplicate-name policy last-write-wins — any older record with the
same name is dropped and the new record appended. -/
def insertEntry (t : List Entry) (e : Entry) : List Entry :=
  t.filter (fun x => x.name ≠ e.name) ++ [e]

/-- Modelled from the spec: build the entry table from the records in parse
order, duplicates resolved last-write-wins. -/
def buildTable (rs : List Entry) : List Entry :=
  rs.foldl insertEntry []

/-- Modelled from the spec (4.2): the Directory Parser — validate the "ITSP"
magic at the directory offset, parse every chunk, and build the entry
table. -/
def parseDirectory (file : Bytes) (h : Header) : Except Err (List Entry) :=
  if (file.drop h.dirOffset).take 4 = itspMagic then
    match parseChunksFrom file (h.dirOffset + 4) h.dirChunkSize h.dirChunkCount 0 with
    | .error e => .error e
    | .ok rs => .ok (buildTable rs)
  else .error .FormatError

/-- Modelled from the spec (4.3): slide the window — append the freshly
decoded bytes and keep only the last `W` bytes. -/
def pushWindow (W : Nat) (win bs : Bytes) : Bytes :=
  (win ++ bs).drop ((win ++ bs).length - W)

/-- Modelled from the spec (4.3): materialise a match token — copy `len`
bytes starting `dist` bytes back in the window, byte by byte, so a distance
shorter than the length replicates the copied prefix as in LZ77/LZX. -/
def copyMatch : Bytes → Nat → Nat → Bytes
  | _, 0, _ => []
  | win, len+1, dist =>
    match win[win.length - dist]? with
    | none => []
    | some b => b :: copyMatch (win ++ [b]) len dist

/-- Modelled from the spec (4.3): decode `need` output bytes from the token
stream `comp` with sliding window `win`. The canonical LZX entropy coding is
not in the sources; the model fixes a byte-level token grammar with the same
structure — `0, b` is a literal byte and `1, len, dist` a match referring
`dist` bytes back into the sliding window. Running out of compressed bytes
is an `IOError` (truncation); a malformed token, a zero or out-of-window
distance, or a match overrunning the decode bound is a `FormatError`.
Returns the decoded bytes and the final window. -/
def decodeTokens (W : Nat) : Bytes → Bytes → Nat → Except Err (Bytes × Bytes)
  | win, _, 0 => .ok ([], win)
  | _, [], _+1 => .error .IOError
  | _, [0], _+1 => .error .IOError
  | win, 0 :: b :: rest, need+1 =>
    (match decodeTokens W (pushWindow W win [b]) rest need with
     | .ok (bs, w) => .ok (b :: bs, w)
     | .error e => .error e)
  | _, [1], _+1 => .error .IOError
  | _, [1, _], _+1 => .error .IOError
  | win, 1 :: len :: dist :: rest, need+1 =>
    if dist = 0 ∨ win.length < dist ∨ len = 0 ∨ need + 1 < len then
      .error .FormatError
    else
      (match decodeTokens W (pushWindow W win (copyMatch win len dist)) rest (need + 1 - len) with
       | .ok (bs, w) => .ok (copyMatch win len dist ++ bs, w)
       | .error e => .error e)
  | _, _ :: _, _+1 => .error .FormatError

/-- Modelled from the spec (4.3): the number of uncompressed bytes covered
by reset interval `i` when the whole section decodes to `total` bytes with
reset interval length `R`. -/
def ivalLen (R total i : Nat) : Nat :=
  min R (total - i * R)

/-- Modelled from the spec (4.3): the window checkpoint a cold decoder holds
on entering reset interval `i` — empty at the very first interval, and
otherwise the window left by decoding interval `i-1` from its reset-table
position. A missing reset-table entry is a `FormatError`. -/
def coldWindow (W R total : Nat) (rt : List Nat) (comp : Bytes) : Nat → Except Err Bytes
  | 0 => .ok []
  | i+1 =>
    match coldWindow W R total rt comp i with
    | .error e => .error e
    | .ok w =>
      match rt[i]? with
      | none => .error .FormatError
      | some off =>
        match decodeTokens W w (comp.drop off) (ivalLen R total i) with
        | .error e => .error e
        | .ok (_, w') => .ok w'

/-- Look up a cached checkpoint window for a reset interval. -/
def lookupCk : List (Nat × Bytes) → Nat → Option Bytes
  | [], _ => none
  | (j, w) :: rest, i => if j = i then some w else lookupCk rest i

/-- Modelled from the spec (4.3): obtain the checkpoint window for interval
`i`, consulting the per-archive cache of previously computed checkpoints and
replaying forward from interval 0 where the cache has no entry. Newly
computed checkpoints are added to the cache, which is returned. -/
def windowAtC (W R total : Nat) (rt : List Nat) (comp : Bytes)
    (cache : List (Nat × Bytes)) : Nat → Except Err (Bytes × List (Nat × Bytes))
  | 0 => .ok ([], cache)
  | i+1 =>
    match lookupCk cache (i+1) with
    | some w => .ok (w, cache)
    | none =>
      match windowAtC W R total rt comp cache i with
      | .error e => .error e
      | .ok (w, c) =>
        match rt[i]? with
        | none => .error .FormatError
        | some off =>
          match decodeTokens W w (comp.drop off) (ivalLen R total i) with
          | .error e => .error e
          | .ok (_, w') => .ok (w', (i+1, w') :: c)

/-- Modelled from the spec (4.3): replay `cnt` output bytes forward from the
start of interval `i` with window `w`, decoding interval by interval from
the reset-table positions. `fuel` bounds the number of intervals visited. -/
def decodeFrom (W R total : Nat) (rt : List Nat) (comp : Bytes) :
    Nat → Nat → Bytes → Nat → Except Err Bytes
  | _, _, _, 0 => .ok []
  | 0, _, _, _+1 => .error .IOError
  | fuel+1, i, w, cnt+1 =>
    if ivalLen R total i = 0 then .error .IOError
    else
      match rt[i]? with
      | none => .error .FormatError
      | some off =>
        match decodeTokens W w (comp.drop off) (min (ivalLen R total i) (cnt+1)) with
        | .error e => .error e
        | .ok (bs, w') =>
          match decodeFrom W R total rt comp fuel (i+1) w'
              (cnt + 1 - min (ivalLen R total i) (cnt+1)) with
          | .error e => .error e
          | .ok out => .ok (bs ++ out)

/-- Modelled from the spec (4.3): decode the uncompressed byte range
[X, X+N) of the MSCompressed section — locate the latest reset interval
at or before X, restore its checkpoint window (through the cache), replay
forward, and discard the leading bytes before X. A range past the declared
uncompressed total is an `IOError` (the section is shorter than asked). -/
def decodeRangeC (W R total : Nat) (rt : List Nat) (comp : Bytes)
    (cache : List (Nat × Bytes)) (X N : Nat) : Except Err (Bytes × List (Nat × Bytes)) :=
  if total < X + N then .error .IOError
  else
    match windowAtC W R total rt comp cache (X / R) with
    | .error e => .error e
    | .ok (w, c') =>
      match decodeFrom W R total rt comp ((X + N - X / R * R) / R + 1) (X / R) w
          (X + N - X / R * R) with
      | .error e => .error e
      | .ok out => .ok ((out.drop (X - X / R * R)).take N, c')

/-- Modelled from the spec (section 3): an Archive owns the backing byte
source, the immutable header, the Directory built once at open time, and the
mutable per-archive decompression state (the checkpoint cache); `closed`
records whether `close` has released it. -/
structure Archive where
  file : Bytes
  header : Header
  directory : List Entry
  state : List (Nat × Bytes)
  closed : Bool
deriving DecidableEq, Repr

/-- Modelled from the spec (4.4): `open` — validate the 4-byte magic "ITSF",
parse the header, invoke the Directory Parser, and return a fresh Archive
with an empty decompression state. -/
def openArchive (file : Bytes) : Except Err Archive :=
  if file.take 4 = itsfMagic then
    match parseHeader file with
    | .error e => .error e
    | .ok h =>
      match parseDirectory file h with
      | .error e => .error e
      | .ok dir => .ok ⟨file, h, dir, [], false⟩
  else .error .FormatError

/-- Modelled from the spec (4.4): `listEntries` — a read-only snapshot of
the Directory in insertion order; `ClosedError` on a closed Archive. -/
def listEntries (a : Archive) : Except Err (List Entry) :=
  if a.closed then .error .ClosedError else .ok a.directory

/-- Modelled from the spec (4.4): `resolve` — exact-match, byte-for-byte
lookup of a name in the Directory; `NotFoundError` when absent and
`ClosedError` on a closed Archive. -/
def resolve (a : Archive) (n : Bytes) : Except Err Entry :=
  if a.closed then .error .ClosedError
  else
    match a.directory.find? (fun e => e.name == n) with
    | some e => .ok e
    | none => .error .NotFoundError

/-- Modelled from the spec (4.4): `close` — release the decompression state
and mark the Archive closed; closing an already closed Archive is a
`ClosedError`. -/
def close (a : Archive) : Except Err Archive :=
  if a.closed then .error .ClosedError
  else .ok { a with state := [], closed := true }

/-- The requested span within an entry: the whole entry when no byte range
is given, and the sub-range (start, length) when it fits inside the entry;
`none` when the requested sub-range exceeds the entry's declared length. -/
def entrySpan (e : Entry) : Option (Nat × Nat) → Option (Nat × Nat)
  | none => some (0, e.length)
  | some (s, n) => if s + n ≤ e.length then some (s, n) else none

/-- The number of bytes a `read` request asks for. -/
def reqLen (e : Entry) : Option (Nat × Nat) → Nat
  | none => e.length
  | some (_, n) => n

/-- Modelled from the spec (4.4): `read` — for Uncompressed entries slice
the backing source at the absolute offset (section base + entry offset);
for MSCompressed entries decode through the checkpointed LZX model. Returns
the bytes and the Archive with its (possibly extended) checkpoint cache;
never returns fewer bytes than requested — truncation is an `IOError`. -/
def read (a : Archive) (e : Entry) (r : Option (Nat × Nat)) :
    Except Err (Bytes × Archive) :=
  if a.closed then .error .ClosedError
  else
    match entrySpan e r with
    | none => .error .IOError
    | some (s, n) =>
      match e.sect with
      | SectionKind.Uncompressed =>
        if a.header.contentBase + e.offset + s + n ≤ a.file.length then
          .ok ((a.file.drop (a.header.contentBase + e.offset + s)).take n, a)
        else .error .IOError
      | SectionKind.MSCompressed =>
        match decodeRangeC a.header.lzxWindow a.header.resetIval a.header.compTotal
            a.header.resetTable (a.file.drop a.header.compOffset) a.state
            (e.offset + s) n with
        | .error e => .error e
        | .ok (bs, st') => .ok (bs, { a with state := st' })

/-- Apply a sequence of `read` requests to an Archive, threading the
decompression state through and ignoring failed reads. -/
def readSeq (a : Archive) : List (Entry × Option (Nat × Nat)) → Archive
  | [] => a
  | (e, r) :: ops =>
    match read a e r with
    | .ok (_, a') => readSeq a' ops
    | .error _ => readSeq a ops

/-- Coherence of a checkpoint cache: every cached window is exactly the
window a cold replay from the start of the stream would reach at that reset
interval. -/
def InvSt (W R total : Nat) (rt : List Nat) (comp : Bytes)
    (cache : List (Nat × Bytes)) : Prop :=
  ∀ i w, lookupCk cache i = some w → coldWindow W R total rt comp i = .ok w

/-- Coherence of an Archive's decompression state with its own backing
bytes and header. -/
def InvA (a : Archive) : Prop :=
  InvSt a.header.lzxWindow a.header.resetIval a.header.compTotal
    a.header.resetTable (a.file.drop a.header.compOffset) a.state

/-- A minimal synthetic archive with one Uncompressed entry "/hello.txt"
holding the two bytes "hi" (the spec's concrete scenario). -/
def sampleUFile : Bytes :=
  [73, 84, 83, 70,  32, 0, 0, 0,  1, 0, 0, 0,  1, 0, 0, 0,
   0, 0, 0, 0,  56, 0, 0, 0,  96, 0, 0, 0,  0, 128, 0, 0,
   4, 0, 0, 0,  92, 0, 0, 0,  1, 0, 0, 0,  100, 0, 0, 0,
   0, 0, 0, 0,  0, 0, 0, 0,
   73, 84, 83, 80,
   80, 77, 71, 76, 10, 47, 104, 101, 108, 108, 111, 46, 116, 120, 116,
   0, 0, 0, 0, 0, 2, 0, 0, 0,  0, 0, 0, 0, 0, 0, 0, 0,
   0, 0, 0, 0,  104, 105]

/-- A minimal synthetic archive with one MSCompressed entry "/c" of 8
decoded bytes spread over two reset intervals of 4 bytes each. -/
def sampleCFile : Bytes :=
  [73, 84, 83, 70,  32, 0, 0, 0,  1, 0, 0, 0,  1, 0, 0, 0,
   0, 0, 0, 0,  56, 0, 0, 0,  96, 0, 0, 0,  0, 128, 0, 0,
   4, 0, 0, 0,  92, 0, 0, 0,  2, 0, 0, 0,  100, 0, 0, 0,
   8, 0, 0, 0,  0, 0, 0, 0,
   73, 84, 83, 80,
   80, 77, 71, 76, 2, 47, 99, 1, 0, 0, 0, 0, 8, 0, 0, 0,
   0, 0, 0, 0, 0, 0, 0, 0, 0, 0, 0, 0, 0, 0, 0, 0,
   0, 0, 0, 0,  8, 0, 0, 0,
   0, 10, 0, 11, 0, 12, 0, 13,  0, 20, 0, 21, 0, 22, 0, 23]

/-- The single entry of `sampleUFile`. -/
def helloEntry : Entry :=
  ⟨[47, 104, 101, 108, 108, 111, 46, 116, 120, 116], SectionKind.Uncompressed, 0, 2⟩

/-- The single entry of `sampleCFile`. -/
def cEntry : Entry := ⟨[47, 99], SectionKind.MSCompressed, 0, 8⟩

/-- The Archive produced by opening `sampleUFile`. -/
def sampleUArchive : Archive :=
  ⟨sampleUFile, ⟨32, 1, 1, 0, 56, 96, 32768, 4, [0], 100, 0⟩, [helloEntry], [], false⟩

/-- The Archive produced by opening `sampleCFile`. -/
def sampleCArchive : Archive :=
  ⟨sampleCFile, ⟨32, 1, 1, 0, 56, 96, 32768, 4, [0, 8], 100, 8⟩, [cEntry], [], false⟩

/-- `sampleUFile` with its last content byte cut off: the content section is
shorter than the entry's declared length. -/
def truncUArchive : Archive :=
  { sampleUArchive with file := sampleUFile.take 97 }

/-- An entry whose declared span [8, 16) lies past the 8 declared
uncompressed bytes of `sampleCFile`'s compressed section. -/
def overlongEntry : Entry := ⟨[47, 99], SectionKind.MSCompressed, 8, 8⟩

/-- `sampleUArchive` after a successful `close`. -/
def closedUArchive : Archive :=
  { sampleUArchive with state := [], closed := true }

/-! A small model of the C preprocessor, for the one source file the
repository does ship: `Sources/CHMLib/include/CHMBridge.h`. -/

/-- A preprocessing-level token of a header expansion: the opening or
closing of a C++ linkage block, or one C declaration. -/
inductive CTok where
  | externCOpen : CTok
  | externCClose : CTok
  | decl : String → CTok
deriving DecidableEq, Repr

/-- Modelled from the spec: `chm_lib.h` is the third-party CHMLib header,
not part of the sources; it is taken, as standard C practice and as the
spec's description of the bridge implies, to be a plain list of C
declarations protected by an include guard macro. -/
structure CHeader where
  guardName : String
  decls : List String
deriving DecidableEq, Repr

/-- Include a guarded header: when its guard macro is already defined the
inclusion expands to nothing, otherwise it defines the guard and expands to
the header's declarations. Returns the updated macro set and the tokens. -/
def includeHeader (defined : List String) (h : CHeader) :
    List String × List CTok :=
  if h.guardName ∈ defined then (defined, [])
  else (h.guardName :: defined, h.decls.map CTok.decl)

/-- The preprocessor expansion of `Sources/CHMLib/include/CHMBridge.h`,
transcribed from the source: an include guard on `CHMBridge_h`; under C++
an `extern "C"` block; inside, two `#include "chm_lib.h"` directives (the
file includes the library header twice) and no declarations of its own. -/
def CHMBridge_h (cplusplus : Bool) (defined : List String) (chmLib : CHeader) :
    List String × List CTok :=
  if "CHMBridge_h" ∈ defined then (defined, [])
  else
    let d1 := "CHMBridge_h" :: defined
    let r1 := includeHeader d1 chmLib
    let r2 := includeHeader r1.1 chmLib
    let body := r1.2 ++ r2.2
    (r2.1, if cplusplus then CTok.externCOpen :: (body ++ [CTok.externCClose]) else body)

/-- The spec's description of what including the bridge should amount to:
exactly the third-party header's declarations, wrapped in an `extern "C"`
block when compiled as C++. -/
def externCInclude (cplusplus : Bool) (chmLib : CHeader) : List CTok :=
  if cplusplus then
    CTok.externCOpen :: (chmLib.decls.map CTok.decl ++ [CTok.externCClose])
  else chmLib.decls.map CTok.decl

/-! Length facts about the decode pipeline: a successful decode yields
exactly the number of bytes asked for. -/

theorem copyMatch_length (len : Nat) : ∀ (win : Bytes) (dist : Nat),
    0 < dist → dist ≤ win.length → (copyMatch win len dist).length = len := by
  induction len with
  | zero => intro win dist _ _; rfl
  | succ n ih =>
    intro win dist h1 h2
    obtain ⟨b, hb⟩ : ∃ b, win[win.length - dist]? = some b := by
      cases hw : win[win.length - dist]? with
      | none =>
        rw [List.getElem?_eq_none_iff] at hw
        omega
      | some b => exact ⟨b, rfl⟩
    simp only [copyMatch, hb, List.length_cons]
    rw [ih (win ++ [b]) dist h1 (by simp; omega)]

theorem decodeTokens_ok_length (W : Nat) (win comp : Bytes) (need : Nat) :
    ∀ (bs w' : Bytes),
      decodeTokens W win comp need = .ok (bs, w') → bs.length = need := by
  induction win, comp, need using decodeTokens.induct W with
  | case1 win x =>
    intro bs w' h
    simp [decodeTokens] at h
    simp [h.1]
  | case2 x n =>
    intro bs w' h
    simp [decodeTokens] at h
  | case3 x n =>
    intro bs w' h
    simp [decodeTokens] at h
  | case4 win b rest need bs0 w0 hrec ih =>
    intro bs w' h
    simp [decodeTokens, hrec] at h
    rw [← h.1, List.length_cons, ih bs0 w0 hrec]
  | case5 win b rest need e hrec ih =>
    intro bs w' h
    simp [decodeTokens, hrec] at h
  | case6 x n =>
    intro bs w' h
    simp [decodeTokens] at h
  | case7 x hd n =>
    intro bs w' h
    simp [decodeTokens] at h
  | case8 win len dist rest need hg =>
    intro bs w' h
    rw [decodeTokens, if_pos hg] at h
    exact absurd h (by simp)
  | case9 win len dist rest need hg bs0 w0 hrec ih =>
    intro bs w' h
    rw [decodeTokens, if_neg hg] at h
    push_neg at hg
    obtain ⟨h1, h2, h3, h4⟩ := hg
    rw [hrec] at h
    simp at h
    have hcm : (copyMatch win len dist).length = len :=
      copyMatch_length len win dist (by omega) h2
    rw [← h.1]
    simp [hcm, ih bs0 w0 hrec]
    omega
  | case10 win len dist rest need hg e hrec ih =>
    intro bs w' h
    rw [decodeTokens, if_neg hg, hrec] at h
    exact absurd h (by simp)
  | case11 x hd tl n hn1 hn2 hn3 hn4 hn5 =>
    intro bs w' h
    rw [decodeTokens] at h
    all_goals try assumption
    exact absurd h (by simp)

theorem decodeFrom_ok_length (W R total : Nat) (rt : List Nat) (comp : Bytes) :
    ∀ (fuel i : Nat) (w : Bytes) (cnt : Nat) (out : Bytes),
      decodeFrom W R total rt comp fuel i w cnt = .ok out → out.length = cnt := by
  intro fuel
  induction fuel with
  | zero =>
    intro i w cnt out h
    cases cnt with
    | zero => simp [decodeFrom] at h; simp [← h]
    | succ n => simp [decodeFrom] at h
  | succ fl ih =>
    intro i w cnt out h
    cases cnt with
    | zero => simp [decodeFrom] at h; simp [← h]
    | succ n =>
      rw [decodeFrom] at h
      split at h
      · exact absurd h (by simp)
      · split at h
        · exact absurd h (by simp)
        · rename_i hiv off hrt
          split at h
          · exact absurd h (by simp)
          · rename_i bs w' hdt
            split at h
            · exact absurd h (by simp)
            · rename_i out0 hdf
              have l1 := decodeTokens_ok_length W w (comp.drop off)
                (min (ivalLen R total i) (n+1)) bs w' hdt
              have l2 := ih (i+1) w' (n + 1 - min (ivalLen R total i) (n+1)) out0 hdf
              have hm : min (ivalLen R total i) (n+1) ≤ n+1 := Nat.min_le_right _ _
              simp at h
              simp [← h, l1, l2]

/-! Checkpoint-cache coherence: with a coherent cache, restoring a window
through the cache gives exactly the window of a cold replay, and the
returned cache is coherent again. -/

theorem invSt_nil (W R total : Nat) (rt : List Nat) (comp : Bytes) :
    InvSt W R total rt comp [] := by
  intro i w h
  simp [lookupCk] at h

theorem windowAtC_spec (W R total : Nat) (rt : List Nat) (comp : Bytes)
    (cache : List (Nat × Bytes)) (hInv : InvSt W R total rt comp cache) (i : Nat) :
    (∀ w c', windowAtC W R total rt comp cache i = .ok (w, c') →
      coldWindow W R total rt comp i = .ok w ∧ InvSt W R total rt comp c') ∧
    (∀ e, windowAtC W R total rt comp cache i = .error e →
      coldWindow W R total rt comp i = .error e) := by
  induction i with
  | zero =>
    constructor
    · intro w c' h
      simp [windowAtC] at h
      refine ⟨by simp [coldWindow, ← h.1], ?_⟩
      rw [← h.2]
      exact hInv
    · intro e h
      simp [windowAtC] at h
  | succ n ih =>
    constructor
    · intro w c' h
      rw [windowAtC] at h
      cases hlk : lookupCk cache (n+1) with
      | some w0 =>
        simp only [hlk] at h
        simp at h
        exact ⟨h.1 ▸ hInv _ _ hlk, h.2 ▸ hInv⟩
      | none =>
        simp only [hlk] at h
        cases hrec : windowAtC W R total rt comp cache n with
        | error e0 => simp only [hrec] at h; simp at h
        | ok p =>
          obtain ⟨w0, c0⟩ := p
          simp only [hrec] at h
          obtain ⟨hcold, hinv0⟩ := ih.1 w0 c0 hrec
          cases hrt : rt[n]? with
          | none => simp only [hrt] at h; simp at h
          | some off =>
            simp only [hrt] at h
            cases hdt : decodeTokens W w0 (comp.drop off) (ivalLen R total n) with
            | error e0 => simp only [hdt] at h; simp at h
            | ok q =>
              obtain ⟨bs, w1⟩ := q
              simp only [hdt] at h
              simp at h
              obtain ⟨hw, hc⟩ := h
              have hcoldS : coldWindow W R total rt comp (n+1) = .ok w1 := by
                rw [coldWindow, hcold]
                simp only [hrt, hdt]
              refine ⟨hw ▸ hcoldS, ?_⟩
              rw [← hc]
              intro j wj hj
              rw [lookupCk] at hj
              by_cases hje : n + 1 = j
              · rw [if_pos hje] at hj
                cases hj
                exact hje ▸ hcoldS
              · rw [if_neg hje] at hj
                exact hinv0 j wj hj
    · intro e h
      rw [windowAtC] at h
      cases hlk : lookupCk cache (n+1) with
      | some w0 => simp only [hlk] at h; simp at h
      | none =>
        simp only [hlk] at h
        cases hrec : windowAtC W R total rt comp cache n with
        | error e0 =>
          simp only [hrec] at h
          simp at h
          have hcn := ih.2 e0 hrec
          rw [coldWindow, hcn, ← h]
        | ok p =>
          obtain ⟨w0, c0⟩ := p
          simp only [hrec] at h
          obtain ⟨hcold, _⟩ := ih.1 w0 c0 hrec
          cases hrt : rt[n]? with
          | none =>
            simp only [hrt] at h
            simp at h
            rw [coldWindow, hcold]
            simp only [hrt, ← h]
          | some off =>
            simp only [hrt] at h
            cases hdt : decodeTokens W w0 (comp.drop off) (ivalLen R total n) with
            | error e0 =>
              simp only [hdt] at h
              simp at h
              rw [coldWindow, hcold]
              simp only [hrt, hdt, ← h]
            | ok q =>
              obtain ⟨bs, w1⟩ := q
              simp only [hdt] at h
              simp at h

/-! Range decoding: the produced bytes do not depend on the checkpoint
cache (so long as it is coherent), the returned cache stays coherent, and a
successful decode returns exactly the bytes asked for. -/

theorem decodeRangeC_fst_eq (W R total : Nat) (rt : List Nat) (comp : Bytes)
    (c1 c2 : List (Nat × Bytes)) (h1 : InvSt W R total rt comp c1)
    (h2 : InvSt W R total rt comp c2) (X N : Nat) :
    (decodeRangeC W R total rt comp c1 X N).map Prod.fst
      = (decodeRangeC W R total rt comp c2 X N).map Prod.fst := by
  rw [decodeRangeC, decodeRangeC]
  by_cases ht : total < X + N
  · simp [ht]
  · simp only [ht, if_false]
    cases hw1 : windowAtC W R total rt comp c1 (X / R) with
    | error e1 =>
      have hc1 := (windowAtC_spec W R total rt comp c1 h1 (X / R)).2 e1 hw1
      cases hw2 : windowAtC W R total rt comp c2 (X / R) with
      | error e2 =>
        have hc2 := (windowAtC_spec W R total rt comp c2 h2 (X / R)).2 e2 hw2
        rw [hc1] at hc2
        simp at hc2
        rw [hc2]
      | ok p2 =>
        obtain ⟨w2, c2'⟩ := p2
        have hc2 := ((windowAtC_spec W R total rt comp c2 h2 (X / R)).1 w2 c2' hw2).1
        rw [hc1] at hc2
        simp at hc2
    | ok p1 =>
      obtain ⟨w1, c1'⟩ := p1
      have hc1 := ((windowAtC_spec W R total rt comp c1 h1 (X / R)).1 w1 c1' hw1).1
      cases hw2 : windowAtC W R total rt comp c2 (X / R) with
      | error e2 =>
        have hc2 := (windowAtC_spec W R total rt comp c2 h2 (X / R)).2 e2 hw2
        rw [hc1] at hc2
        simp at hc2
      | ok p2 =>
        obtain ⟨w2, c2'⟩ := p2
        have hc2 := ((windowAtC_spec W R total rt comp c2 h2 (X / R)).1 w2 c2' hw2).1
        rw [hc1] at hc2
        simp at hc2
        rw [hc2]
        cases hdf : decodeFrom W R total rt comp ((X + N - X / R * R) / R + 1) (X / R) w2
            (X + N - X / R * R) with
        | error e => simp only [hdf]
        | ok out => simp only [hdf]; rfl

theorem decodeRangeC_inv (W R total : Nat) (rt : List Nat) (comp : Bytes)
    (cache : List (Nat × Bytes)) (hInv : InvSt W R total rt comp cache)
    (X N : Nat) (bs : Bytes) (c' : List (Nat × Bytes))
    (h : decodeRangeC W R total rt comp cache X N = .ok (bs, c')) :
    InvSt W R total rt comp c' := by
  rw [decodeRangeC] at h
  split at h
  · exact absurd h (by simp)
  · split at h
    · exact absurd h (by simp)
    · rename_i w c0 hw
      have hc := ((windowAtC_spec W R total rt comp cache hInv (X / R)).1 w c0 hw).2
      split at h
      · exact absurd h (by simp)
      · simp at h
        rw [← h.2]
        exact hc

theorem decodeRangeC_ok_length (W R total : Nat) (rt : List Nat) (comp : Bytes)
    (cache : List (Nat × Bytes)) (X N : Nat) (bs : Bytes) (c' : List (Nat × Bytes))
    (h : decodeRangeC W R total rt comp cache X N = .ok (bs, c')) :
    bs.length = N := by
  rw [decodeRangeC] at h
  split at h
  · exact absurd h (by simp)
  · rename_i ht
    split at h
    · exact absurd h (by simp)
    · rename_i w c0 hw
      split at h
      · exact absurd h (by simp)
      · rename_i out hdf
        have hl := decodeFrom_ok_length W R total rt comp _ _ _ _ _ hdf
        have hb : X / R * R ≤ X := Nat.div_mul_le_self X R
        simp at h
        rw [← h.1]
        simp [hl]
        omega

/-! Archive-level facts about `read`: it never touches the backing bytes,
header or Directory, it keeps the decompression state coherent, and the
bytes it returns do not depend on that state. -/

theorem except_match_map_fst (x : Except Err (Bytes × List (Nat × Bytes)))
    (f : List (Nat × Bytes) → Archive) :
    (Except.map Prod.fst
      (match x with
       | .error e => (.error e : Except Err (Bytes × Archive))
       | .ok p => .ok (p.1, f p.2)))
      = Except.map Prod.fst x := by
  cases x with
  | error e => rfl
  | ok p => rfl

theorem read_ok_meta (a : Archive) (e : Entry) (r : Option (Nat × Nat))
    (bs : Bytes) (a' : Archive) (h : read a e r = .ok (bs, a')) :
    a'.file = a.file ∧ a'.header = a.header ∧ a'.directory = a.directory ∧
      a'.closed = a.closed := by
  rw [read] at h
  split at h
  · exact absurd h (by simp)
  · split at h
    · exact absurd h (by simp)
    · split at h
      · split at h
        · simp at h
          rw [← h.2]
          exact ⟨rfl, rfl, rfl, rfl⟩
        · exact absurd h (by simp)
      · split at h
        · exact absurd h (by simp)
        · simp at h
          rw [← h.2]
          exact ⟨rfl, rfl, rfl, rfl⟩

theorem read_ok_inv (a : Archive) (e : Entry) (r : Option (Nat × Nat))
    (bs : Bytes) (a' : Archive) (hInv : InvA a) (h : read a e r = .ok (bs, a')) :
    InvA a' := by
  obtain ⟨hf, hh, _, _⟩ := read_ok_meta a e r bs a' h
  rw [read] at h
  split at h
  · exact absurd h (by simp)
  · split at h
    · exact absurd h (by simp)
    · split at h
      · split at h
        · simp at h
          rw [InvA, hf, hh, ← h.2]
          exact hInv
        · exact absurd h (by simp)
      · split at h
        · exact absurd h (by simp)
        · rename_i s n hsect bs0 st0 hdec
          simp at h
          rw [InvA, hf, hh, ← h.2]
          exact decodeRangeC_inv _ _ _ _ _ _ hInv _ _ _ _ hdec

theorem read_fst_eq (a b : Archive) (e : Entry) (r : Option (Nat × Nat))
    (hf : b.file = a.file) (hh : b.header = a.header) (hc : b.closed = a.closed)
    (hia : InvA a) (hib : InvA b) :
    (read b e r).map Prod.fst = (read a e r).map Prod.fst := by
  rw [InvA] at hia hib
  rw [hf, hh] at hib
  rw [read, read, hf, hh, hc]
  cases hcl : a.closed with
  | true => simp
  | false =>
    simp only [Bool.false_eq_true, if_false]
    cases hsp : entrySpan e r with
    | none => simp
    | some p =>
      obtain ⟨s, n⟩ := p
      simp only []
      cases e.sect with
      | Uncompressed =>
        by_cases hle : a.header.contentBase + e.offset + s + n ≤ a.file.length
        · simp [hle]
          rfl
        · simp [hle]
      | MSCompressed =>
        have heq := decodeRangeC_fst_eq a.header.lzxWindow a.header.resetIval
          a.header.compTotal a.header.resetTable (a.file.drop a.header.compOffset)
          b.state a.state hib hia (e.offset + s) n
        cases hd1 : decodeRangeC a.header.lzxWindow a.header.resetIval a.header.compTotal
            a.header.resetTable (a.file.drop a.header.compOffset) b.state (e.offset + s) n with
        | error e1 =>
          cases hd2 : decodeRangeC a.header.lzxWindow a.header.resetIval a.header.compTotal
              a.header.resetTable (a.file.drop a.header.compOffset) a.state (e.offset + s) n with
          | error e2 =>
            rw [hd1, hd2] at heq
            simp [Except.map] at heq
            simp only [hd1, hd2, heq]
          | ok p2 =>
            rw [hd1, hd2] at heq
            simp [Except.map] at heq
        | ok p1 =>
          cases hd2 : decodeRangeC a.header.lzxWindow a.header.resetIval a.header.compTotal
              a.header.resetTable (a.file.drop a.header.compOffset) a.state (e.offset + s) n with
          | error e2 =>
            rw [hd1, hd2] at heq
            simp [Except.map] at heq
          | ok p2 =>
            obtain ⟨bs1, st1⟩ := p1
            obtain ⟨bs2, st2⟩ := p2
            rw [hd1, hd2] at heq
            simp [Except.map] at heq
            simp only [hd1, hd2]
            simp [Except.map, heq]

theorem readSeq_meta (ops : List (Entry × Option (Nat × Nat))) :
    ∀ (a : Archive), InvA a →
      (readSeq a ops).file = a.file ∧ (readSeq a ops).header = a.header ∧
      (readSeq a ops).directory = a.directory ∧ (readSeq a ops).closed = a.closed ∧
      InvA (readSeq a ops) := by
  induction ops with
  | nil => intro a ha; exact ⟨rfl, rfl, rfl, rfl, ha⟩
  | cons op ops ih =>
    intro a ha
    obtain ⟨e, r⟩ := op
    rw [readSeq]
    cases hrd : read a e r with
    | error err => exact ih a ha
    | ok p =>
      obtain ⟨bs, a1⟩ := p
      obtain ⟨h1, h2, h3, h4⟩ := read_ok_meta a e r bs a1 hrd
      have hi1 := read_ok_inv a e r bs a1 ha hrd
      obtain ⟨g1, g2, g3, g4, g5⟩ := ih a1 hi1
      exact ⟨g1.trans h1, g2.trans h2, g3.trans h3, g4.trans h4, g5⟩

theorem read_readSeq_fst (a : Archive) (hInv : InvA a)
    (ops : List (Entry × Option (Nat × Nat))) (e : Entry) (r : Option (Nat × Nat)) :
    (read (readSeq a ops) e r).map Prod.fst = (read a e r).map Prod.fst := by
  obtain ⟨h1, h2, h3, h4, h5⟩ := readSeq_meta ops a hInv
  exact read_fst_eq a (readSeq a ops) e r h1 h2 h4 hInv h5

/-! Facts about `openArchive`. -/

theorem openArchive_ok (f : Bytes) (a : Archive) (h : openArchive f = .ok a) :
    a.file = f ∧ a.state = [] ∧ a.closed = false ∧
      ∃ rs, a.directory = buildTable rs := by
  rw [openArchive] at h
  split at h
  · split at h
    · exact absurd h (by simp)
    · rename_i hdr hph
      split at h
      · exact absurd h (by simp)
      · rename_i dir hpd
        injection h with h2
        subst h2
        refine ⟨rfl, rfl, rfl, ?_⟩
        rw [parseDirectory] at hpd
        split at hpd
        · split at hpd
          · exact absurd hpd (by simp)
          · rename_i rs hrs
            injection hpd with h3
            exact ⟨rs, h3.symm⟩
        · exact absurd hpd (by simp)
  · exact absurd h (by simp)

theorem openArchive_inv (f : Bytes) (a : Archive) (h : openArchive f = .ok a) :
    InvA a := by
  obtain ⟨_, hst, _, _⟩ := openArchive_ok f a h
  rw [InvA, hst]
  exact invSt_nil _ _ _ _ _

/-! Entry-table lemmas: the last-write-wins insert keeps names unique, and
lookup finds exactly the inserted records. -/

theorem find?_filter_of_imp {α : Type} (p q : α → Bool)
    (hpq : ∀ x, p x = true → q x = true) :
    ∀ l : List α, (l.filter q).find? p = l.find? p := by
  intro l
  induction l with
  | nil => rfl
  | cons x xs ih =>
    cases hq : q x with
    | true =>
      rw [List.filter_cons_of_pos hq, List.find?_cons, List.find?_cons]
      cases hp : p x with
      | true => rfl
      | false => exact ih
    | false =>
      have hp : p x = false := by
        cases hpx : p x with
        | true => rw [hpq x hpx] at hq; cases hq
        | false => rfl
      rw [List.filter_cons_of_neg (by simp [hq]), List.find?_cons, hp, ih]

theorem find?_insertEntry (t : List Entry) (r : Entry) (n : Bytes) :
    (insertEntry t r).find? (fun e => e.name == n) =
      if r.name = n then some r else t.find? (fun e => e.name == n) := by
  rw [insertEntry, List.find?_append]
  by_cases hrn : r.name = n
  · rw [if_pos hrn]
    have hnone : (t.filter (fun x => x.name ≠ r.name)).find?
        (fun e => e.name == n) = none := by
      rw [List.find?_eq_none]
      intro x hx
      rw [List.mem_filter] at hx
      have hxr : x.name ≠ r.name := by simpa using hx.2
      simp [hrn ▸ hxr]
    rw [hnone]
    simp [hrn]
  · rw [if_neg hrn]
    have hone : ([r].find? (fun e => e.name == n)) = none := by
      have : (r.name == n) = false := by simpa using hrn
      simp [List.find?_cons, this]
    rw [hone]
    have himp : ∀ x : Entry, (x.name == n) = true →
        (decide (x.name ≠ r.name)) = true := by
      intro x hx
      simp at hx
      simp [hx]
      exact fun hc => hrn (hc ▸ rfl)
    rw [find?_filter_of_imp _ _ himp t]
    cases t.find? (fun e => e.name == n) <;> rfl

theorem insertEntry_names_nodup (t : List Entry) (e : Entry)
    (h : (t.map Entry.name).Nodup) :
    ((insertEntry t e).map Entry.name).Nodup := by
  rw [insertEntry, List.map_append, List.nodup_append]
  refine ⟨?_, by simp, ?_⟩
  · exact List.Nodup.sublist (List.Sublist.map _ (List.filter_sublist t)) h
  · intro x hx hy
    simp at hy
    rw [List.mem_map] at hx
    obtain ⟨a, ha, rfl⟩ := hx
    rw [List.mem_filter] at ha
    have : a.name ≠ e.name := by simpa using ha.2
    exact this hy

theorem buildTable_names_nodup (rs : List Entry) :
    ((buildTable rs).map Entry.name).Nodup := by
  rw [buildTable]
  have hstep : ∀ t : List Entry, (t.map Entry.name).Nodup →
      ((rs.foldl insertEntry t).map Entry.name).Nodup := by
    induction rs with
    | nil => intro t h; exact h
    | cons r rs ih =>
      intro t h
      exact ih _ (insertEntry_names_nodup t r h)
  exact hstep [] (by simp)

theorem find?_self_of_nodup : ∀ (l : List Entry), ((l.map Entry.name).Nodup) →
    ∀ e ∈ l, l.find? (fun x => x.name == e.name) = some e := by
  intro l
  induction l with
  | nil => intro _ e he; cases he
  | cons x xs ih =>
    intro hnd e he
    rw [List.map_cons, List.nodup_cons] at hnd
    rcases List.mem_cons.mp he with rfl | hmem
    · rw [List.find?_cons]
      simp
    · have hx : x.name ≠ e.name := by
        intro hcontra
        exact hnd.1 (hcontra ▸ List.mem_map_of_mem Entry.name hmem)
      have hxb : (x.name == e.name) = false := by simpa using hx
      rw [List.find?_cons, hxb]
      exact ih hnd.2 e hmem

theorem entrySpan_some (e : Entry) (r : Option (Nat × Nat)) (s n : Nat)
    (h : entrySpan e r = some (s, n)) : n = reqLen e r := by
  cases r with
  | none =>
    simp [entrySpan] at h
    rw [reqLen, ← h.2]
  | some p =>
    obtain ⟨s0, n0⟩ := p
    rw [entrySpan] at h
    split at h
    · simp at h
      rw [reqLen, ← h.2]
    · exact absurd h (by simp)

/-- C1: a successful `read` returns exactly the requested number of bytes
(the entry's declared length, or the requested sub-range length), and when
the content section is shorter than the declared span — for an Uncompressed
entry the backing file, for an MSCompressed entry the declared uncompressed
total — `read` fails with `IOError` instead of returning fewer bytes. -/
theorem read_exact_or_ioerror :
    (∀ (a : Archive) (e : Entry) (r : Option (Nat × Nat)) (bs : Bytes) (a' : Archive),
        read a e r = .ok (bs, a') → bs.length = reqLen e r) ∧
    (∀ (a : Archive) (e : Entry), a.closed = false →
        e.sect = SectionKind.Uncompressed →
        a.file.length < a.header.contentBase + e.offset + e.length →
        read a e none = .error .IOError) ∧
    (∀ (a : Archive) (e : Entry), a.closed = false →
        e.sect = SectionKind.MSCompressed →
        a.header.compTotal < e.offset + e.length →
        read a e none = .error .IOError) := by
  refine ⟨?_, ?_, ?_⟩
  · intro a e r bs a' h
    rw [read] at h
    split at h
    · exact absurd h (by simp)
    · split at h
      · exact absurd h (by simp)
      · rename_i s n hsp
        have hn := entrySpan_some e r s n hsp
        rw [← hn]
        split at h
        · split at h
          · rename_i hle
            simp at h
            rw [← h.1]
            simp [List.length_take, List.length_drop]
            omega
          · exact absurd h (by simp)
        · split at h
          · exact absurd h (by simp)
          · rename_i bs0 st0 hdec
            simp at h
            rw [← h.1]
            exact decodeRangeC_ok_length _ _ _ _ _ _ _ _ _ _ hdec
  · intro a e hcl hsect hlen
    simp only [read, hcl, Bool.false_eq_true, if_false, entrySpan, hsect]
    rw [if_neg (by omega)]
  · intro a e hcl hsect hlen
    simp only [read, hcl, Bool.false_eq_true, if_false, entrySpan, hsect]
    rw [decodeRangeC, if_pos (by omega)]

/-- Witness for C1 at the synthetic archives: the two-byte read of
"/hello.txt" returns two bytes; the truncated archive and the overlong
compressed span both fail with `IOError`. -/
theorem read_exact_or_ioerror_witness :
    ([104, 105] : Bytes).length = reqLen helloEntry none ∧
    read truncUArchive helloEntry none = .error .IOError ∧
    read sampleCArchive overlongEntry none = .error .IOError :=
  ⟨read_exact_or_ioerror.1 sampleUArchive helloEntry none [104, 105] sampleUArchive
      (by decide),
   read_exact_or_ioerror.2.1 truncUArchive helloEntry (by decide) (by decide) (by decide),
   read_exact_or_ioerror.2.2 sampleCArchive overlongEntry (by decide) (by decide) (by decide)⟩

/-- C2: a file whose first 4 bytes are not the magic "ITSF" makes `open`
return `FormatError` and no Archive. -/
theorem open_bad_magic_formatError (f : Bytes) (h : ¬ f.take 4 = itsfMagic) :
    openArchive f = .error .FormatError := by
  rw [openArchive, if_neg h]

/-- Witness for C2: the empty file fails with `FormatError`. -/
theorem open_bad_magic_formatError_witness :
    openArchive [] = .error .FormatError :=
  open_bad_magic_formatError [] (by decide)

/-- C3: after any prior sequence of reads on an Archive produced by `open`,
reading a byte range yields exactly the same result as reading it on the
cold Archive straight out of `open` — the checkpoint cache never changes
the decoded bytes. -/
theorem checkpoint_cold_eq (f : Bytes) (a : Archive) (hopen : openArchive f = .ok a)
    (ops : List (Entry × Option (Nat × Nat))) (e : Entry) (r : Option (Nat × Nat)) :
    (read (readSeq a ops) e r).map Prod.fst = (read a e r).map Prod.fst :=
  read_readSeq_fst a (openArchive_inv f a hopen) ops e r

/-- Witness for C3: on the compressed sample archive, decoding bytes
[2, 6) after a prior read of [5, 7) equals decoding [2, 6) cold. -/
theorem checkpoint_cold_eq_witness :
    (read (readSeq sampleCArchive [(cEntry, some (5, 2))]) cEntry (some (2, 4))).map
        Prod.fst
      = (read sampleCArchive cEntry (some (2, 4))).map Prod.fst :=
  checkpoint_cold_eq sampleCFile sampleCArchive (by decide)
    [(cEntry, some (5, 2))] cEntry (some (2, 4))

/-- C4: on an Archive produced by `open`, `listEntries` returns the
Directory, and `resolve` on each listed entry's name returns that exact
entry. -/
theorem listEntries_resolve_roundtrip (f : Bytes) (a : Archive)
    (hopen : openArchive f = .ok a) :
    listEntries a = .ok a.directory ∧
      ∀ e ∈ a.directory, resolve a e.name = .ok e := by
  obtain ⟨-, -, hcl, rs, hdir⟩ := openArchive_ok f a hopen
  constructor
  · simp [listEntries, hcl]
  · intro e he
    have hnd : (a.directory.map Entry.name).Nodup := by
      rw [hdir]
      exact buildTable_names_nodup rs
    simp only [resolve, hcl, Bool.false_eq_true, if_false]
    rw [find?_self_of_nodup a.directory hnd e he]

/-- Witness for C4 on the synthetic uncompressed archive. -/
theorem listEntries_resolve_roundtrip_witness :
    listEntries sampleUArchive = .ok sampleUArchive.directory ∧
      ∀ e ∈ sampleUArchive.directory, resolve sampleUArchive e.name = .ok e :=
  listEntries_resolve_roundtrip sampleUFile sampleUArchive (by decide)

/-- C5: two `read` calls at the same entry and byte range return identical
bytes regardless of which (possibly different) sequences of prior reads
were performed on the Archive since `open`. -/
theorem read_idempotent (f : Bytes) (a : Archive) (hopen : openArchive f = .ok a)
    (ops1 ops2 : List (Entry × Option (Nat × Nat))) (e : Entry)
    (r : Option (Nat × Nat)) :
    (read (readSeq a ops1) e r).map Prod.fst
      = (read (readSeq a ops2) e r).map Prod.fst := by
  have hinv := openArchive_inv f a hopen
  rw [read_readSeq_fst a hinv ops1 e r, read_readSeq_fst a hinv ops2 e r]

/-- Witness for C5: re-reading bytes [0, 4) of the compressed entry after a
prior read elsewhere matches reading them with no prior access. -/
theorem read_idempotent_witness :
    (read (readSeq sampleCArchive [(cEntry, some (4, 4))]) cEntry (some (0, 4))).map
        Prod.fst
      = (read (readSeq sampleCArchive []) cEntry (some (0, 4))).map Prod.fst :=
  read_idempotent sampleCFile sampleCArchive (by decide)
    [(cEntry, some (4, 4))] [] cEntry (some (0, 4))

/-- C6: `resolve` is an exact-match lookup — it returns an entry exactly
when the Directory holds one with that byte-for-byte name, and returns
`NotFoundError` exactly when no such entry exists. -/
theorem resolve_exact_match (a : Archive) (n : Bytes) (hcl : a.closed = false) :
    (∀ e, resolve a n = .ok e → e ∈ a.directory ∧ e.name = n) ∧
    ((∃ e ∈ a.directory, e.name = n) → ∃ e, resolve a n = .ok e) ∧
    (resolve a n = .error .NotFoundError ↔ ¬ ∃ e ∈ a.directory, e.name = n) := by
  cases hf : a.directory.find? (fun e => e.name == n) with
  | some e0 =>
    have hres0 : resolve a n = .ok e0 := by
      simp only [resolve, hcl, Bool.false_eq_true, if_false, hf]
    have hmem : e0 ∈ a.directory := List.mem_of_find?_eq_some hf
    have hname : e0.name = n := by simpa using List.find?_some hf
    refine ⟨?_, ?_, ?_⟩
    · intro e he
      rw [hres0] at he
      simp at he
      rw [← he]
      exact ⟨hmem, hname⟩
    · intro _
      exact ⟨e0, hres0⟩
    · constructor
      · intro hcontra
        rw [hres0] at hcontra
        exact absurd hcontra (by simp)
      · intro hne
        exact absurd ⟨e0, hmem, hname⟩ hne
  | none =>
    have hres0 : resolve a n = .error .NotFoundError := by
      simp only [resolve, hcl, Bool.false_eq_true, if_false, hf]
    have hnone := List.find?_eq_none.mp hf
    refine ⟨?_, ?_, ?_⟩
    · intro e he
      rw [hres0] at he
      exact absurd he (by simp)
    · rintro ⟨e, he, hne⟩
      exact absurd (show (e.name == n) = true by simpa using hne) (hnone e he)
    · exact ⟨fun _ => fun ⟨e, he, hne⟩ =>
        hnone e he (by simpa using hne), fun _ => hres0⟩

/-- Witness for C6: "/hello.txt" resolves to its entry and a missing name
answers `NotFoundError`. -/
theorem resolve_exact_match_witness :
    (helloEntry ∈ sampleUArchive.directory ∧ helloEntry.name = helloEntry.name) ∧
    (∃ e, resolve sampleUArchive helloEntry.name = .ok e) ∧
    (resolve sampleUArchive [47, 120] = .error .NotFoundError ↔
      ¬ ∃ e ∈ sampleUArchive.directory, e.name = [47, 120]) :=
  ⟨(resolve_exact_match sampleUArchive helloEntry.name (by decide)).1 helloEntry
      (by decide),
   (resolve_exact_match sampleUArchive helloEntry.name (by decide)).2.1
      ⟨helloEntry, by decide, rfl⟩,
   (resolve_exact_match sampleUArchive [47, 120] (by decide)).2.2⟩

/-- C7: after `close` succeeds, every operation on the closed Archive —
`listEntries`, `resolve`, `read`, and a second `close` — fails with
`ClosedError`. -/
theorem closed_archive_ops (a a' : Archive) (h : close a = .ok a') :
    listEntries a' = .error .ClosedError ∧
    (∀ n, resolve a' n = .error .ClosedError) ∧
    (∀ e r, read a' e r = .error .ClosedError) ∧
    close a' = .error .ClosedError := by
  have hcl : a'.closed = true := by
    rw [close] at h
    split at h
    · exact absurd h (by simp)
    · simp at h
      rw [← h]
  refine ⟨?_, ?_, ?_, ?_⟩
  · simp [listEntries, hcl]
  · intro n
    simp [resolve, hcl]
  · intro e r
    simp [read, hcl]
  · simp [close, hcl]

/-- Witness for C7 on the sample archive. -/
theorem closed_archive_ops_witness :
    listEntries closedUArchive = .error .ClosedError ∧
    resolve closedUArchive [47] = .error .ClosedError ∧
    read closedUArchive helloEntry none = .error .ClosedError ∧
    close closedUArchive = .error .ClosedError :=
  have h := closed_archive_ops sampleUArchive closedUArchive (by decide)
  ⟨h.1, h.2.1 [47], h.2.2.1 helloEntry none, h.2.2.2⟩

/-- C8: when the record stream holds several records with the same name,
the entry table built by the Directory Parser maps that name to the record
parsed last — looking a name up in `buildTable rs` finds exactly what a
backwards search over the parse order finds. -/
theorem duplicate_last_write (rs : List Entry) (n : Bytes) :
    (buildTable rs).find? (fun e => e.name == n)
      = rs.reverse.find? (fun e => e.name == n) := by
  induction rs using List.reverseRecOn with
  | nil => rfl
  | append_singleton rs r ih =>
    rw [buildTable, List.foldl_append, List.foldl_cons, List.foldl_nil, ← buildTable,
        find?_insertEntry, List.reverse_append, List.reverse_singleton,
        List.singleton_append, List.find?_cons]
    by_cases hrn : r.name = n
    · have : (r.name == n) = true := by simpa using hrn
      rw [if_pos hrn, this]
    · have : (r.name == n) = false := by simpa using hrn
      rw [if_neg hrn, this, ih]

/-- C9: the Directory is built once at open time and no operation mutates
it — `listEntries` returns it verbatim, `resolve` returns members of it,
and `read` and `close` leave it (and the backing bytes and header)
untouched. -/
theorem directory_immutable :
    (∀ (a : Archive) (l : List Entry), listEntries a = .ok l → l = a.directory) ∧
    (∀ (a : Archive) (n : Bytes) (e : Entry), resolve a n = .ok e → e ∈ a.directory) ∧
    (∀ (a : Archive) (e : Entry) (r : Option (Nat × Nat)) (bs : Bytes) (a' : Archive),
        read a e r = .ok (bs, a') →
          a'.directory = a.directory ∧ a'.file = a.file ∧ a'.header = a.header) ∧
    (∀ (a a' : Archive), close a = .ok a' → a'.directory = a.directory) := by
  refine ⟨?_, ?_, ?_, ?_⟩
  · intro a l h
    rw [listEntries] at h
    split at h
    · exact absurd h (by simp)
    · simp at h
      rw [h]
  · intro a n e h
    rw [resolve] at h
    split at h
    · exact absurd h (by simp)
    · split at h
      · rename_i e0 hf
        simp at h
        rw [← h]
        exact List.mem_of_find?_eq_some hf
      · exact absurd h (by simp)
  · intro a e r bs a' h
    obtain ⟨h1, h2, h3, _⟩ := read_ok_meta a e r bs a' h
    exact ⟨h3, h1, h2⟩
  · intro a a' h
    rw [close] at h
    split at h
    · exact absurd h (by simp)
    · simp at h
      rw [← h]

/-- Witness for C9 on the sample archive and its operations. -/
theorem directory_immutable_witness :
    ([helloEntry] = sampleUArchive.directory) ∧
    (helloEntry ∈ sampleUArchive.directory) ∧
    (sampleUArchive.directory = sampleUArchive.directory ∧
      sampleUArchive.file = sampleUArchive.file ∧
      sampleUArchive.header = sampleUArchive.header) ∧
    (closedUArchive.directory = sampleUArchive.directory) :=
  ⟨directory_immutable.1 sampleUArchive [helloEntry] (by decide),
   directory_immutable.2.1 sampleUArchive helloEntry.name helloEntry (by decide),
   directory_immutable.2.2.1 sampleUArchive helloEntry none [104, 105] sampleUArchive
      (by decide),
   directory_immutable.2.2.2 sampleUArchive closedUArchive (by decide)⟩

/-- C10: including `CHMBridge.h` expands to exactly what including
`chm_lib.h` wrapped in `extern "C"` linkage guards expands to — the bridge
introduces no declarations or definitions of its own. -/
theorem bridge_equiv_chm_lib (cplusplus : Bool) (defined : List String)
    (chmLib : CHeader) (h1 : "CHMBridge_h" ∉ defined)
    (h2 : chmLib.guardName ∉ defined) (h3 : chmLib.guardName ≠ "CHMBridge_h") :
    (CHMBridge_h cplusplus defined chmLib).2 = externCInclude cplusplus chmLib := by
  rw [CHMBridge_h, if_neg h1, externCInclude]
  have hg1 : includeHeader ("CHMBridge_h" :: defined) chmLib
      = (chmLib.guardName :: "CHMBridge_h" :: defined, chmLib.decls.map CTok.decl) := by
    rw [includeHeader, if_neg (by simp [h2, h3])]
  have hg2 : includeHeader (chmLib.guardName :: "CHMBridge_h" :: defined) chmLib
      = (chmLib.guardName :: "CHMBridge_h" :: defined, []) := by
    rw [includeHeader, if_pos (by simp)]
  simp only [hg1, hg2]
  cases cplusplus <;> simp

/-- Witness for C10 with a concrete third-party header. -/
theorem bridge_equiv_chm_lib_witness :
    (CHMBridge_h true []
        ⟨"CHM_LIB_H", ["chm_open", "chm_close", "chm_resolve_object",
          "chm_retrieve_object", "chm_enumerate"]⟩).2
      = externCInclude true
        ⟨"CHM_LIB_H", ["chm_open", "chm_close", "chm_resolve_object",
          "chm_retrieve_object", "chm_enumerate"]⟩ :=
  bridge_equiv_chm_lib true []
    ⟨"CHM_LIB_H", ["chm_open", "chm_close", "chm_resolve_object",
      "chm_retrieve_object", "chm_enumerate"]⟩
    (by simp) (by simp) (by decide)

end CHM
